import Mathlib

/-!
Verification of the core streaming validate-deduplicate-append engine of
the ULP file organizer (src/main.py).  Text is modelled as `List Char`;
a file is modelled by its full (already newline-translated) character
contents.  `ULPValidator.validate_line`, the per-line body of
`FileProcessor.process_files`, the rejection logs, the dedup set, the
progress throttle and the stop command observed at line boundaries are
embedded as executable Lean functions below.
-/

/-- Character data of a string literal, used to write `List Char` constants. -/
def chars (s : String) : List Char := s.data

/-- Characters removed by Python `str.strip()` with no argument
(Unicode whitespace, as used at src/main.py line 32 and line 115). -/
def isPySpace (c : Char) : Bool :=
  decide ((9 ≤ c.toNat ∧ c.toNat ≤ 13) ∨ (28 ≤ c.toNat ∧ c.toNat ≤ 31) ∨
    c.toNat = 32 ∨ c.toNat = 133 ∨ c.toNat = 160 ∨ c.toNat = 5760 ∨
    (8192 ≤ c.toNat ∧ c.toNat ≤ 8202) ∨ c.toNat = 8232 ∨ c.toNat = 8233 ∨
    c.toNat = 8239 ∨ c.toNat = 8287 ∨ c.toNat = 12288)

/-- Python `s.rstrip()`: drop trailing whitespace. -/
def pyStripR (l : List Char) : List Char := (l.reverse.dropWhile isPySpace).reverse

/-- Python `s.strip()`: drop leading and trailing whitespace. -/
def pyStrip (l : List Char) : List Char := (pyStripR l).dropWhile isPySpace

/-- Auxiliary for Python `s.split(sep, maxsplit)` with a one-character
separator: `acc` holds the reversed characters of the current segment and
the `Nat` argument is the remaining number of allowed splits. -/
def pySplitAux (sep : Char) : Nat → List Char → List Char → List (List Char)
  | _, acc, [] => [acc.reverse]
  | 0, acc, cs => [acc.reverse ++ cs]
  | fuel+1, acc, c :: cs =>
    if c = sep then acc.reverse :: pySplitAux sep fuel [] cs
    else pySplitAux sep (fuel+1) (c :: acc) cs

/-- Python `s.split(sep, maxsplit)` for a one-character separator. -/
def pySplit (sep : Char) (maxsplit : Nat) (l : List Char) : List (List Char) :=
  pySplitAux sep maxsplit [] l

/-- `ULPValidator.validate_line` (src/main.py lines 29-44): strip the raw
line; an empty result is rejected as `Empty Line`; otherwise split on
`:` with maxsplit 2 and reject as `Not Enough Parts` unless exactly 3
segments result; otherwise the whole stripped line is valid.  Returns
`(is_valid, reason, clean_line)`.  The line-number argument is unused,
exactly as in the source. -/
def validate_line (line : List Char) (_lineNum : Nat) : Bool × List Char × List Char :=
  let l := pyStrip line
  if l = [] then (false, chars ("Empty Line"), l)
  else if (pySplit ':' 2 l).length ≠ 3 then (false, chars ("Not Enough Parts"), l)
  else (true, chars ("Valid"), l)

/-- Auxiliary for the uncapped split on a separator (all occurrences act
as delimiters); used only on the specification side. -/
def splitAllAux (sep : Char) : List Char → List Char → List (List Char)
  | acc, [] => [acc.reverse]
  | acc, c :: cs =>
    if c = sep then acc.reverse :: splitAllAux sep [] cs
    else splitAllAux sep (c :: acc) cs

/-- Uncapped split on a separator character. -/
def splitAll (sep : Char) (l : List Char) : List (List Char) := splitAllAux sep [] l

/-- Interleave a separator character between segments (inverse of `splitAll`). -/
def joinWith (sep : Char) : List (List Char) → List Char
  | [] => []
  | [p] => p
  | p :: q :: ps => p ++ sep :: joinWith sep (q :: ps)

/-- Specification-side segmentation (spec section 4.1, step 2): split on
every colon, then cap the result at 3 segments, the third segment
retaining any further colons — only the first two colons act as
delimiters. -/
def specSegments (l : List Char) : List (List Char) :=
  let parts := splitAll ':' l
  if parts.length ≤ 3 then parts
  else parts.take 2 ++ [joinWith ':' (parts.drop 2)]

/-- Rejection reasons of the spec's closed set. -/
inductive Reason where
  | emptyLine
  | notEnoughParts
  | duplicate
deriving DecidableEq

/-- The spec's `ClassificationOutcome` sum type (spec section 3). -/
inductive Outcome where
  | valid : List Char → Outcome
  | rejected : Reason → List Char → Outcome
deriving DecidableEq

/-- Specification-side classifier, written from the words of spec
section 4.1: strip; empty means `Rejected(EmptyLine, raw)`; a segment
count other than 3 (under the capped split) means
`Rejected(NotEnoughParts, raw)`; otherwise `Valid` with the whole
stripped line as the record. -/
def classify_spec (raw : List Char) : Outcome :=
  let s := pyStrip raw
  if s = [] then .rejected .emptyLine raw
  else if (specSegments s).length ≠ 3 then .rejected .notEnoughParts raw
  else .valid s

/-- Reading of the source classifier's result tuple as a spec
`ClassificationOutcome` (decoding the reason strings of the source). -/
def toOutcome (raw : List Char) : Bool × List Char × List Char → Option Outcome
  | (true, _, clean) => some (.valid clean)
  | (false, reason, _) =>
    if reason = chars ("Empty Line") then some (.rejected .emptyLine raw)
    else if reason = chars ("Not Enough Parts") then some (.rejected .notEnoughParts raw)
    else none

/-- Splitting of file contents into the lines Python file iteration
yields: each line keeps its trailing newline character; a final chunk
without a newline is yielded as-is; empty contents yield no lines.
`acc` holds the reversed characters of the current line. -/
def pyLinesAux : List Char → List Char → List (List Char)
  | acc, [] => if acc = [] then [] else [acc.reverse]
  | acc, c :: cs =>
    if c = '\n' then (acc.reverse ++ ['\n']) :: pyLinesAux [] cs
    else pyLinesAux (c :: acc) cs

/-- The lines of file contents, as Python file iteration yields them. -/
def pyLines (cs : List Char) : List (List Char) := pyLinesAux [] cs

/-- Remove a single trailing newline, if present. -/
def chomp (l : List Char) : List Char :=
  if l.getLast? = some '\n' then l.dropLast else l

/-- The physical lines of file contents (no newline characters kept). -/
def fileLines (cs : List Char) : List (List Char) := (pyLines cs).map chomp

/-- Decimal digits of a natural number. -/
def natChars (n : Nat) : List Char := (Nat.repr n).data

/-- One rejection-log entry as written by `FileProcessor.log_rejection`
(src/main.py line 94): the text `Line <n>: <content>` plus a newline. -/
def fmtEntry (n : Nat) (content : List Char) : List Char :=
  chars ("Line ") ++ natChars n ++ chars (": ") ++ content ++ ['\n']

/-- `FileProcessor.initialize_logs` (src/main.py line 83) names each log
file after its rejection reason. -/
def logFileName (reason : List Char) : List Char := reason ++ chars (".txt")

/-- State of one `FileProcessor` run: the in-memory dedup set
`existing_lines` (a list used only through membership), the master file
contents, the counters, the three rejection-log files (as lists of
appended entries) and the emitted progress snapshots
`(total, processed, valid, rejected)` in order. -/
structure PState where
  existing : List (List Char)
  masterContent : List Char
  validLines : Nat
  rejectedLines : Nat
  processedLines : Nat
  logNEP : List (List Char)
  logEmpty : List (List Char)
  logDup : List (List Char)
  emits : List (Nat × Nat × Nat × Nat)
deriving DecidableEq

/-- `FileProcessor.log_rejection` (src/main.py lines 91-94): append a
formatted entry to the log stream of the given reason; a reason not in
the dictionary is silently ignored, as in the source. -/
def log_rejection (st : PState) (reason : List Char) (lineNum : Nat)
    (content : List Char) : PState :=
  if reason = chars ("Not Enough Parts") then
    { st with logNEP := st.logNEP ++ [fmtEntry lineNum content] }
  else if reason = chars ("Empty Line") then
    { st with logEmpty := st.logEmpty ++ [fmtEntry lineNum content] }
  else if reason = chars ("Duplicate") then
    { st with logDup := st.logDup ++ [fmtEntry lineNum content] }
  else st

/-- The loop body of `FileProcessor.process_files` for one line, after
the boundary stop/pause check (src/main.py lines 135-164): classify;
valid lines are checked against the dedup set and either logged as
`Duplicate` or appended to the master file (with a newline) and inserted
into the set; rejected lines are logged; `processed_lines` is set to the
line number; a snapshot is emitted when `line_num % 100 == 0` or
`line_num == total_lines`. -/
def processLine (total : Nat) (st : PState) (lineNum : Nat) (line : List Char) : PState :=
  let v := validate_line line lineNum
  let st1 :=
    if v.1 then
      if st.existing.contains v.2.2 then
        let stl := log_rejection st (chars ("Duplicate")) lineNum v.2.2
        { stl with rejectedLines := stl.rejectedLines + 1 }
      else
        { st with masterContent := st.masterContent ++ v.2.2 ++ ['\n'],
                  existing := v.2.2 :: st.existing,
                  validLines := st.validLines + 1 }
    else
      let stl := log_rejection st v.2.1 lineNum v.2.2
      { stl with rejectedLines := stl.rejectedLines + 1 }
  let st2 := { st1 with processedLines := lineNum }
  if lineNum % 100 = 0 ∨ lineNum = total then
    { st2 with emits := st2.emits ++
        [(total, st2.processedLines, st2.validLines, st2.rejectedLines)] }
  else st2

/-- Whether the boundary check at the start of an iteration observes
`is_running = false`: a stop command issued after `n` fully processed
lines is observed at every boundary with line number above `n`
(src/main.py lines 128-130 and 198-201). -/
def stopObserved (stopAfter : Option Nat) (lineNum : Nat) : Bool :=
  match stopAfter with
  | none => false
  | some n => decide (n < lineNum)

/-- The main loop of `FileProcessor.process_files` (src/main.py lines
121-164).  `failAt = some n` models an I/O exception escaping while
line `n` is being handled (for example a failed master-file write): the
`.error` result carries the state accumulated so far and is routed by
`process_files` through the `except` branch.  A completed or stopped
loop returns `.ok`. -/
def processLoop (total : Nat) (stopAfter failAt : Option Nat) :
    PState → Nat → List (List Char) → Except PState PState
  | st, _, [] => .ok st
  | st, n0, line :: rest =>
    if stopObserved stopAfter (n0+1) then .ok st
    else if failAt = some (n0+1) then .error st
    else processLoop total stopAfter failAt (processLine total st (n0+1) line) (n0+1) rest

/-- The state carried by either outcome of the loop. -/
def stateOf : Except PState PState → PState
  | .ok st => st
  | .error st => st

/-- The state at the start of the loop (src/main.py lines 100-122): all
counters zero, dedup set seeded from the stripped lines of the master
file when it exists, master file opened in append mode (created empty
when absent). -/
def initState (masterExists : Bool) (masterContent : List Char) : PState :=
  { existing := if masterExists then (pyLines masterContent).map pyStrip else [],
    masterContent := if masterExists then masterContent else [],
    validLines := 0, rejectedLines := 0, processedLines := 0,
    logNEP := [], logEmpty := [], logDup := [], emits := [] }

/-- Observable outcome of one `process_files` call: final counters,
final master-file contents, log contents, emitted snapshots, how many
times the close sequence (`master_fd.close()` plus `close_logs`) ran,
and which terminal signal fired. -/
structure RunResult where
  totalLines : Nat
  processedLines : Nat
  validLines : Nat
  rejectedLines : Nat
  master : List Char
  logNEP : List (List Char)
  logEmpty : List (List Char)
  logDup : List (List Char)
  emits : List (Nat × Nat × Nat × Nat)
  closeCount : Nat
  completeEmitted : Bool
  errorEmitted : Bool
deriving DecidableEq

/-- `FileProcessor.process_files` (src/main.py lines 96-186): count the
target lines, seed the dedup set, run the loop; on normal exit (end of
input or stop) close the master file and the logs, emit a final
snapshot and the completion signal; when an exception escapes the loop,
the `except` branch emits only the error signal — the close sequence in
the `try` block is skipped and the `finally` block only clears
`is_running`. -/
def process_files (masterExists : Bool) (masterContent targetContent : List Char)
    (stopAfter failAt : Option Nat) : RunResult :=
  let lines := pyLines targetContent
  let total := lines.length
  let st0 := initState masterExists masterContent
  match processLoop total stopAfter failAt st0 0 lines with
  | .ok fin =>
    { totalLines := total, processedLines := fin.processedLines,
      validLines := fin.validLines, rejectedLines := fin.rejectedLines,
      master := fin.masterContent,
      logNEP := fin.logNEP, logEmpty := fin.logEmpty, logDup := fin.logDup,
      emits := fin.emits ++
        [(total, fin.processedLines, fin.validLines, fin.rejectedLines)],
      closeCount := 1, completeEmitted := true, errorEmitted := false }
  | .error fin =>
    { totalLines := total, processedLines := fin.processedLines,
      validLines := fin.validLines, rejectedLines := fin.rejectedLines,
      master := fin.masterContent,
      logNEP := fin.logNEP, logEmpty := fin.logEmpty, logDup := fin.logDup,
      emits := fin.emits,
      closeCount := 0, completeEmitted := false, errorEmitted := true }

/-- The records accepted by a full (unstopped) pass over the given
lines, starting from the given dedup-set contents: the valid lines
whose clean record is not yet in the set, in input order. -/
def acceptedRecs : List (List Char) → Nat → List (List Char) → List (List Char)
  | _, _, [] => []
  | exist, n0, line :: rest =>
    let v := validate_line line (n0+1)
    if v.1 then
      if exist.contains v.2.2 then acceptedRecs exist (n0+1) rest
      else v.2.2 :: acceptedRecs (v.2.2 :: exist) (n0+1) rest
    else acceptedRecs exist (n0+1) rest

/-- The master-file block appended for a list of accepted records: each
record followed by one newline. -/
def joinRecs (recs : List (List Char)) : List Char :=
  (recs.map (fun r => r ++ ['\n'])).flatten

/-- Shared state of the worker's line-boundary wait and of the command
surface (src/main.py lines 127-133 and 188-201): whether the worker
thread currently holds `self.lock`, the `is_paused` and `is_running`
flags, and whether a pending `resume()` call has completed.  In the
source, the `while self.is_paused and self.is_running: time.sleep(0.1)`
poll is inside the `with self.lock:` block, so the lock is held across
every sleep iteration, while `pause`, `resume` and `stop` each begin
with `with self.lock:` and therefore must acquire the same
non-reentrant lock before touching a flag. -/
structure CmdState where
  workerHoldsLock : Bool
  isPaused : Bool
  isRunning : Bool
  resumeDone : Bool
deriving DecidableEq

/-- Interleaved transitions of the paused worker and a pending
`resume()` call: the worker performs a sleep iteration (holding the
lock, changing nothing) while `is_paused ∧ is_running`; the worker can
leave the wait and release the lock only once the flag conjunction
fails; `resume()` completes — clearing `is_paused` — only by first
acquiring the lock, which requires the worker not to hold it. -/
inductive cmdStep : CmdState → CmdState → Prop
  | workerPoll (s : CmdState) (h1 : s.workerHoldsLock = true) (h2 : s.isPaused = true)
      (h3 : s.isRunning = true) : cmdStep s s
  | workerLeave (s : CmdState) (h1 : s.workerHoldsLock = true)
      (h2 : ¬(s.isPaused = true ∧ s.isRunning = true)) :
      cmdStep s { s with workerHoldsLock := false }
  | resumeAcquire (s : CmdState) (h1 : s.workerHoldsLock = false) :
      cmdStep s { s with isPaused := false, resumeDone := true }

theorem splitAllAux_ne_nil (sep : Char) :
    ∀ (cs acc : List Char), splitAllAux sep acc cs ≠ [] := by
  intro cs
  induction cs with
  | nil => intro acc; simp [splitAllAux]
  | cons c cs ih =>
    intro acc
    by_cases h : c = sep
    · simp [splitAllAux, h]
    · simpa [splitAllAux, h] using ih (c :: acc)

theorem joinWith_splitAllAux (sep : Char) :
    ∀ (cs acc : List Char), joinWith sep (splitAllAux sep acc cs) = acc.reverse ++ cs := by
  intro cs
  induction cs with
  | nil => intro acc; simp [splitAllAux, joinWith]
  | cons c cs ih =>
    intro acc
    by_cases h : c = sep
    · subst h
      rcases hsp : splitAllAux c [] cs with _ | ⟨p, ps⟩
      · exact absurd hsp (splitAllAux_ne_nil c cs [])
      · have hjoin : joinWith c (splitAllAux c [] cs) = cs := by
          simpa using ih []
        rw [hsp] at hjoin
        simp [splitAllAux, joinWith, hsp, hjoin]
    · simpa [splitAllAux, h] using ih (c :: acc)

theorem pySplitAux_eq_cap (sep : Char) :
    ∀ (cs acc : List Char) (fuel : Nat),
      pySplitAux sep fuel acc cs =
        if (splitAllAux sep acc cs).length ≤ fuel + 1 then splitAllAux sep acc cs
        else (splitAllAux sep acc cs).take fuel ++
          [joinWith sep ((splitAllAux sep acc cs).drop fuel)] := by
  intro cs
  induction cs with
  | nil =>
    intro acc fuel
    simp [pySplitAux, splitAllAux, joinWith]
  | cons c cs ih =>
    intro acc fuel
    cases fuel with
    | zero =>
      have hLHS : pySplitAux sep 0 acc (c :: cs) = [acc.reverse ++ c :: cs] := rfl
      rcases hsp : splitAllAux sep acc (c :: cs) with _ | ⟨p, ps⟩
      · exact absurd hsp (splitAllAux_ne_nil sep (c :: cs) acc)
      · have hjoin : joinWith sep (p :: ps) = acc.reverse ++ c :: cs := by
          rw [← hsp, joinWith_splitAllAux]
        cases ps with
        | nil =>
          simp only [hLHS, List.length_cons, List.length_nil]
          simp only [joinWith] at hjoin
          simp [hjoin]
        | cons q qs =>
          simp only [hLHS, List.length_cons]
          rw [if_neg (by omega)]
          simp [hjoin]
    | succ f =>
      by_cases h : c = sep
      · subst h
        have hstep : pySplitAux c (f+1) acc (c :: cs) =
            acc.reverse :: pySplitAux c f [] cs := by
          simp [pySplitAux]
        have hsp : splitAllAux c acc (c :: cs) = acc.reverse :: splitAllAux c [] cs := by
          simp [splitAllAux]
        rw [hstep, ih [] f, hsp]
        by_cases hlen : (splitAllAux c [] cs).length ≤ f + 1
        · rw [if_pos hlen, if_pos (by simp; omega)]
        · rw [if_neg hlen, if_neg (by simp; omega)]
          simp
      · have hstep : pySplitAux sep (f+1) acc (c :: cs) =
            pySplitAux sep (f+1) (c :: acc) cs := by
          simp [pySplitAux, h]
        have hsp : splitAllAux sep acc (c :: cs) = splitAllAux sep (c :: acc) cs := by
          simp [splitAllAux, h]
        rw [hstep, hsp, ih (c :: acc) (f+1)]

theorem pySplit_eq_specSegments (l : List Char) : pySplit ':' 2 l = specSegments l := by
  have h := pySplitAux_eq_cap ':' l [] 2
  simp only [pySplit, specSegments, splitAll]
  rw [h]

/-- Claim C1: the classifier applies its rules in order — strip; empty
stripped line is rejected as `EmptyLine`; a capped-split segment count
other than exactly 3 is rejected as `NotEnoughParts`; otherwise the line
is `Valid` with the whole stripped line as the record.  In particular
`user:example.com` is `NotEnoughParts` and `a:b:c:d` is `Valid` with
record `a:b:c:d`. -/
theorem claim1_classifier :
    (∀ (raw : List Char) (n : Nat),
      toOutcome raw (validate_line raw n) = some (classify_spec raw)) ∧
    validate_line (chars ("user:example.com")) 1 =
      (false, chars ("Not Enough Parts"), chars ("user:example.com")) ∧
    validate_line (chars ("a:b:c:d")) 1 = (true, chars ("Valid"), chars ("a:b:c:d")) := by
  refine ⟨?_, by decide, by decide⟩
  intro raw n
  simp only [validate_line, classify_spec]
  by_cases h1 : pyStrip raw = []
  · simp [h1, toOutcome]
  · rw [if_neg h1, if_neg h1, pySplit_eq_specSegments]
    by_cases h2 : (specSegments (pyStrip raw)).length ≠ 3
    · rw [if_pos h2, if_pos h2]
      simp [toOutcome]
      decide
    · rw [if_neg h2, if_neg h2]
      simp [toOutcome]

theorem validate_line_num_irrel (line : List Char) (n m : Nat) :
    validate_line line n = validate_line line m := rfl

theorem log_rejection_fields (st : PState) (reason : List Char) (n : Nat)
    (content : List Char) :
    (log_rejection st reason n content).validLines = st.validLines ∧
    (log_rejection st reason n content).rejectedLines = st.rejectedLines ∧
    (log_rejection st reason n content).processedLines = st.processedLines ∧
    (log_rejection st reason n content).masterContent = st.masterContent ∧
    (log_rejection st reason n content).existing = st.existing ∧
    (log_rejection st reason n content).emits = st.emits := by
  unfold log_rejection
  split_ifs <;> simp

theorem processLine_processed (total : Nat) (st : PState) (n : Nat) (line : List Char) :
    (processLine total st n line).processedLines = n := by
  simp only [processLine]
  split_ifs <;> rfl

theorem processLine_counterSum (total : Nat) (st : PState) (n : Nat) (line : List Char) :
    (processLine total st n line).validLines + (processLine total st n line).rejectedLines
      = st.validLines + st.rejectedLines + 1 := by
  simp only [processLine, log_rejection]
  split_ifs <;> simp <;> omega

theorem process_files_fields (me : Bool) (mc tgt : List Char) (sa fa : Option Nat) :
    (process_files me mc tgt sa fa).processedLines =
        (stateOf (processLoop (pyLines tgt).length sa fa (initState me mc) 0
          (pyLines tgt))).processedLines ∧
    (process_files me mc tgt sa fa).validLines =
        (stateOf (processLoop (pyLines tgt).length sa fa (initState me mc) 0
          (pyLines tgt))).validLines ∧
    (process_files me mc tgt sa fa).rejectedLines =
        (stateOf (processLoop (pyLines tgt).length sa fa (initState me mc) 0
          (pyLines tgt))).rejectedLines ∧
    (process_files me mc tgt sa fa).master =
        (stateOf (processLoop (pyLines tgt).length sa fa (initState me mc) 0
          (pyLines tgt))).masterContent ∧
    (process_files me mc tgt sa fa).totalLines = (pyLines tgt).length ∧
    (process_files me mc tgt sa fa).logNEP =
        (stateOf (processLoop (pyLines tgt).length sa fa (initState me mc) 0
          (pyLines tgt))).logNEP ∧
    (process_files me mc tgt sa fa).logEmpty =
        (stateOf (processLoop (pyLines tgt).length sa fa (initState me mc) 0
          (pyLines tgt))).logEmpty ∧
    (process_files me mc tgt sa fa).logDup =
        (stateOf (processLoop (pyLines tgt).length sa fa (initState me mc) 0
          (pyLines tgt))).logDup := by
  unfold process_files
  cases h : processLoop (pyLines tgt).length sa fa (initState me mc) 0 (pyLines tgt) <;>
    simp [stateOf, h]

theorem loop_inv (total : Nat) (sa fa : Option Nat) :
    ∀ (ls : List (List Char)) (st : PState) (n0 : Nat),
      st.processedLines = st.validLines + st.rejectedLines →
      st.processedLines = n0 →
      n0 + ls.length ≤ total →
      (stateOf (processLoop total sa fa st n0 ls)).processedLines =
          (stateOf (processLoop total sa fa st n0 ls)).validLines +
          (stateOf (processLoop total sa fa st n0 ls)).rejectedLines ∧
        (stateOf (processLoop total sa fa st n0 ls)).processedLines ≤ total := by
  intro ls
  induction ls with
  | nil =>
    intro st n0 h1 h2 h3
    simp only [processLoop, stateOf]
    simp at h3
    exact ⟨h1, by omega⟩
  | cons l rest ih =>
    intro st n0 h1 h2 h3
    simp only [processLoop]
    by_cases hs : stopObserved sa (n0+1) = true
    · rw [if_pos hs]
      simp only [stateOf]
      exact ⟨h1, by simp at h3; omega⟩
    · rw [if_neg hs]
      by_cases hf : fa = some (n0+1)
      · rw [if_pos hf]
        simp only [stateOf]
        exact ⟨h1, by simp at h3; omega⟩
      · rw [if_neg hf]
        refine ih (processLine total st (n0+1) l) (n0+1) ?_ ?_ ?_
        · rw [processLine_processed, processLine_counterSum]
          omega
        · exact processLine_processed total st (n0+1) l
        · simp at h3
          omega

/-- Claim C2: for every run — over every stop schedule and every
failure point, so in particular at every line boundary — the final
counters satisfy `processedLines = validLines + rejectedLines` and
`processedLines ≤ totalLines`. -/
theorem claim2_counters (me : Bool) (mc tgt : List Char) (sa fa : Option Nat) :
    (process_files me mc tgt sa fa).processedLines =
        (process_files me mc tgt sa fa).validLines +
        (process_files me mc tgt sa fa).rejectedLines ∧
      (process_files me mc tgt sa fa).processedLines ≤
        (process_files me mc tgt sa fa).totalLines := by
  obtain ⟨hp, hv, hr, -, ht, -⟩ := process_files_fields me mc tgt sa fa
  have h := loop_inv (pyLines tgt).length sa fa (pyLines tgt) (initState me mc) 0
    (by simp [initState]) (by simp [initState]) (by omega)
  rw [hp, hv, hr, ht]
  exact h

theorem log_rejection_nep (st : PState) (n : Nat) (c : List Char) :
    log_rejection st (chars ("Not Enough Parts")) n c =
      { st with logNEP := st.logNEP ++ [fmtEntry n c] } := by
  unfold log_rejection
  rw [if_pos rfl]

theorem log_rejection_empty (st : PState) (n : Nat) (c : List Char) :
    log_rejection st (chars ("Empty Line")) n c =
      { st with logEmpty := st.logEmpty ++ [fmtEntry n c] } := by
  unfold log_rejection
  rw [if_neg (by decide), if_pos rfl]

theorem log_rejection_dup (st : PState) (n : Nat) (c : List Char) :
    log_rejection st (chars ("Duplicate")) n c =
      { st with logDup := st.logDup ++ [fmtEntry n c] } := by
  unfold log_rejection
  rw [if_neg (by decide), if_neg (by decide), if_pos rfl]

theorem processLine_valid_dup (total : Nat) (st : PState) (n : Nat)
    (line r c : List Char) (hv : validate_line line n = (true, r, c))
    (hm : c ∈ st.existing) :
    (processLine total st n line).validLines = st.validLines ∧
    (processLine total st n line).rejectedLines = st.rejectedLines + 1 ∧
    (processLine total st n line).masterContent = st.masterContent ∧
    (processLine total st n line).existing = st.existing ∧
    (processLine total st n line).logDup = st.logDup ++ [fmtEntry n c] ∧
    (processLine total st n line).logNEP = st.logNEP ∧
    (processLine total st n line).logEmpty = st.logEmpty := by
  have hc : st.existing.contains c = true := List.elem_iff.mpr hm
  simp only [processLine, hv, log_rejection_dup, hc, if_true]
  split_ifs <;> simp

theorem processLine_valid_new (total : Nat) (st : PState) (n : Nat)
    (line r c : List Char) (hv : validate_line line n = (true, r, c))
    (hm : c ∉ st.existing) :
    (processLine total st n line).validLines = st.validLines + 1 ∧
    (processLine total st n line).rejectedLines = st.rejectedLines ∧
    (processLine total st n line).masterContent = st.masterContent ++ c ++ ['\n'] ∧
    (processLine total st n line).existing = c :: st.existing ∧
    (processLine total st n line).logDup = st.logDup ∧
    (processLine total st n line).logNEP = st.logNEP ∧
    (processLine total st n line).logEmpty = st.logEmpty := by
  have hc : st.existing.contains c = false := by
    simp [List.elem_iff]
    exact hm
  simp only [processLine, hv, hc, Bool.false_eq_true, if_false, if_true]
  split_ifs <;> simp

theorem processLine_invalid (total : Nat) (st : PState) (n : Nat)
    (line reason c : List Char) (hv : validate_line line n = (false, reason, c)) :
    (processLine total st n line).validLines = st.validLines ∧
    (processLine total st n line).rejectedLines = st.rejectedLines + 1 ∧
    (processLine total st n line).masterContent = st.masterContent ∧
    (processLine total st n line).existing = st.existing ∧
    (processLine total st n line).logDup = (log_rejection st reason n c).logDup ∧
    (processLine total st n line).logNEP = (log_rejection st reason n c).logNEP ∧
    (processLine total st n line).logEmpty = (log_rejection st reason n c).logEmpty := by
  obtain ⟨hvl, hr, -, hma, hex, -⟩ := log_rejection_fields st reason n c
  simp only [processLine, hv, Bool.false_eq_true, if_false]
  split_ifs <;> simp [hvl, hr, hma, hex]

theorem validate_reason_cases (line : List Char) (n : Nat) (reason c : List Char)
    (hv : validate_line line n = (false, reason, c)) :
    reason = chars ("Empty Line") ∨ reason = chars ("Not Enough Parts") := by
  simp only [validate_line] at hv
  split_ifs at hv with h1 h2
  · exact Or.inl (by injection hv with a b; injection b with b1 b2; exact b1.symm)
  · exact Or.inr (by injection hv with a b; injection b with b1 b2; exact b1.symm)
  · injection hv with a b
    simp at a

theorem validate_valid_reason (line : List Char) (n : Nat) (reason c : List Char)
    (hv : validate_line line n = (true, reason, c)) : reason = chars ("Valid") := by
  simp only [validate_line] at hv
  split_ifs at hv with h1 h2
  · injection hv with a b
    simp at a
  · injection hv with a b
    simp at a
  · injection hv with a b
    injection b with b1 b2
    exact b1.symm

theorem validate_clean (line : List Char) (n : Nat) :
    (validate_line line n).2.2 = pyStrip line := by
  simp only [validate_line]
  split_ifs <;> rfl

theorem processLine_valid_mem (total : Nat) (st : PState) (n : Nat)
    (line r c : List Char) (hv : validate_line line n = (true, r, c)) :
    c ∈ (processLine total st n line).existing := by
  by_cases hm : c ∈ st.existing
  · obtain ⟨-, -, -, hex, -⟩ := processLine_valid_dup total st n line r c hv hm
    rw [hex]
    exact hm
  · obtain ⟨-, -, -, hex, -⟩ := processLine_valid_new total st n line r c hv hm
    rw [hex]
    exact List.mem_cons_self c st.existing

theorem processLine_existing_mono (total : Nat) (st : PState) (n : Nat)
    (line a : List Char) (ha : a ∈ st.existing) :
    a ∈ (processLine total st n line).existing := by
  simp only [processLine, log_rejection]
  split_ifs <;> simp [ha]

theorem processLine_logDup_mono (total : Nat) (st : PState) (n : Nat)
    (line : List Char) (e : List Char) (he : e ∈ st.logDup) :
    e ∈ (processLine total st n line).logDup := by
  simp only [processLine, log_rejection]
  split_ifs <;> simp [he]

theorem loop_existing_mono (total : Nat) (sa fa : Option Nat) :
    ∀ (ls : List (List Char)) (st : PState) (n0 : Nat) (a : List Char),
      a ∈ st.existing → a ∈ (stateOf (processLoop total sa fa st n0 ls)).existing := by
  intro ls
  induction ls with
  | nil =>
    intro st n0 a ha
    simpa [processLoop, stateOf] using ha
  | cons l rest ih =>
    intro st n0 a ha
    simp only [processLoop]
    by_cases hs : stopObserved sa (n0+1) = true
    · rw [if_pos hs]
      simpa [stateOf] using ha
    · rw [if_neg hs]
      by_cases hf : fa = some (n0+1)
      · rw [if_pos hf]
        simpa [stateOf] using ha
      · rw [if_neg hf]
        exact ih _ _ a (processLine_existing_mono total st (n0+1) l a ha)

theorem loop_logDup_mono (total : Nat) (sa fa : Option Nat) :
    ∀ (ls : List (List Char)) (st : PState) (n0 : Nat) (e : List Char),
      e ∈ st.logDup → e ∈ (stateOf (processLoop total sa fa st n0 ls)).logDup := by
  intro ls
  induction ls with
  | nil =>
    intro st n0 e he
    simpa [processLoop, stateOf] using he
  | cons l rest ih =>
    intro st n0 e he
    simp only [processLoop]
    by_cases hs : stopObserved sa (n0+1) = true
    · rw [if_pos hs]
      simpa [stateOf] using he
    · rw [if_neg hs]
      by_cases hf : fa = some (n0+1)
      · rw [if_pos hf]
        simpa [stateOf] using he
      · rw [if_neg hf]
        exact ih _ _ e (processLine_logDup_mono total st (n0+1) l e he)

theorem loop_dup_entry (total : Nat) :
    ∀ (mid : List (List Char)) (st : PState) (n0 : Nat) (line2 c : List Char),
      c ∈ st.existing →
      (validate_line line2 0).1 = true →
      (validate_line line2 0).2.2 = c →
      fmtEntry (n0 + mid.length + 1) c ∈
        (stateOf (processLoop total none none st n0 (mid ++ [line2]))).logDup := by
  intro mid
  induction mid with
  | nil =>
    intro st n0 line2 c hmem h1 h2
    have hv : validate_line line2 (n0+1) = (true, (validate_line line2 0).2.1, c) := by
      rw [validate_line_num_irrel line2 (n0+1) 0]
      rw [← h2]
      exact Prod.ext h1 (Prod.ext rfl rfl)
    obtain ⟨-, -, -, -, hld, -⟩ := processLine_valid_dup total st (n0+1) line2
      (validate_line line2 0).2.1 c hv hmem
    simp only [List.nil_append, processLoop, stopObserved, if_neg]
    have : fmtEntry (n0 + 1) c ∈ (processLine total st (n0+1) line2).logDup := by
      rw [hld]
      simp
    simpa [processLoop, stateOf] using this
  | cons m mid ih =>
    intro st n0 line2 c hmem h1 h2
    have hstep : c ∈ (processLine total st (n0+1) m).existing :=
      processLine_existing_mono total st (n0+1) m c hmem
    have := ih (processLine total st (n0+1) m) (n0+1) line2 c hstep h1 h2
    simp only [List.cons_append, processLoop, stopObserved, if_neg]
    simpa [Nat.add_assoc, Nat.add_comm, Nat.add_left_comm] using this

/-- Claim C3: a line classified `Valid` whose clean record is already in
the dedup index is rejected as `Duplicate` (one entry in the duplicate
log, `rejectedLines` incremented, nothing appended to the master file);
a fresh record is appended to the master file with a newline, inserted
into the index, and `validLines` is incremented; consequently an
identical valid line occurring later in the same run is logged as
`Duplicate` at its second occurrence. -/
theorem claim3_dedup (total : Nat) (st : PState) (n : Nat) (line r c : List Char)
    (hv : validate_line line n = (true, r, c)) :
    (c ∈ st.existing →
      (processLine total st n line).validLines = st.validLines ∧
      (processLine total st n line).rejectedLines = st.rejectedLines + 1 ∧
      (processLine total st n line).masterContent = st.masterContent ∧
      (processLine total st n line).existing = st.existing ∧
      (processLine total st n line).logDup = st.logDup ++ [fmtEntry n c]) ∧
    (c ∉ st.existing →
      (processLine total st n line).validLines = st.validLines + 1 ∧
      (processLine total st n line).rejectedLines = st.rejectedLines ∧
      (processLine total st n line).masterContent = st.masterContent ++ c ++ ['\n'] ∧
      (processLine total st n line).existing = c :: st.existing ∧
      (processLine total st n line).logDup = st.logDup) ∧
    (∀ (n0 : Nat) (mid : List (List Char)) (line2 : List Char),
      (validate_line line2 0).1 = true →
      (validate_line line2 0).2.2 = c →
      fmtEntry (n0 + mid.length + 2) c ∈
        (stateOf (processLoop total none none st n0 (line :: mid ++ [line2]))).logDup) := by
  refine ⟨?_, ?_, ?_⟩
  · intro hm
    obtain ⟨h1, h2, h3, h4, h5, -⟩ := processLine_valid_dup total st n line r c hv hm
    exact ⟨h1, h2, h3, h4, h5⟩
  · intro hm
    obtain ⟨h1, h2, h3, h4, h5, -⟩ := processLine_valid_new total st n line r c hv hm
    exact ⟨h1, h2, h3, h4, h5⟩
  · intro n0 mid line2 h1 h2
    have hv1 : validate_line line (n0+1) = (true, r, c) := by
      rw [validate_line_num_irrel line (n0+1) n]
      exact hv
    have hmem : c ∈ (processLine total st (n0+1) line).existing :=
      processLine_valid_mem total st (n0+1) line r c hv1
    have := loop_dup_entry total mid (processLine total st (n0+1) line) (n0+1) line2 c
      hmem h1 h2
    simp only [List.cons_append, processLoop, stopObserved, if_neg]
    simpa [Nat.add_assoc, Nat.add_comm, Nat.add_left_comm] using this

/-- Concrete instantiation of `claim3_dedup`: a fresh valid record is
accepted, and the identical line later in the same file is logged as a
duplicate at its line number. -/
theorem claim3_dedup_witness :
    (processLine 2 (initState false []) 1 (chars ("a:b:c"))).validLines = 0 + 1 ∧
    fmtEntry 2 (chars ("a:b:c")) ∈
      (stateOf (processLoop 2 none none (initState false []) 0
        [chars ("a:b:c"), chars ("a:b:c")])).logDup := by
  have h := claim3_dedup 2 (initState false []) 1 (chars ("a:b:c")) (chars ("Valid"))
    (chars ("a:b:c")) (by decide)
  constructor
  · exact ((h.2.1 (by decide)).1).trans (by decide)
  · have := h.2.2 0 [] (chars ("a:b:c")) (by decide) (by decide)
    simpa using this

theorem processLine_emits (total : Nat) (st : PState) (n : Nat) (line : List Char) :
    (processLine total st n line).emits =
      if n % 100 = 0 ∨ n = total then
        st.emits ++ [(total, (processLine total st n line).processedLines,
          (processLine total st n line).validLines,
          (processLine total st n line).rejectedLines)]
      else st.emits := by
  simp only [processLine, log_rejection]
  split_ifs <;> simp

theorem stopObserved_none_eq (n : Nat) : stopObserved none n = false := rfl

theorem stopObserved_some_eq (N n : Nat) : stopObserved (some N) n = decide (N < n) := rfl

theorem processLoop_nil (total : Nat) (sa fa : Option Nat) (st : PState) (n0 : Nat) :
    processLoop total sa fa st n0 [] = .ok st := rfl

theorem processLoop_cons_stop (total : Nat) (sa fa : Option Nat) (st : PState) (n0 : Nat)
    (l : List Char) (rest : List (List Char)) (hs : stopObserved sa (n0+1) = true) :
    processLoop total sa fa st n0 (l :: rest) = .ok st := by
  simp only [processLoop]
  rw [if_pos hs]

theorem processLoop_cons_fail (total : Nat) (sa fa : Option Nat) (st : PState) (n0 : Nat)
    (l : List Char) (rest : List (List Char)) (hs : stopObserved sa (n0+1) = false)
    (hf : fa = some (n0+1)) :
    processLoop total sa fa st n0 (l :: rest) = .error st := by
  simp only [processLoop]
  rw [if_neg (by rw [hs]; simp), if_pos hf]

theorem processLoop_cons_go (total : Nat) (sa fa : Option Nat) (st : PState) (n0 : Nat)
    (l : List Char) (rest : List (List Char)) (hs : stopObserved sa (n0+1) = false)
    (hf : fa ≠ some (n0+1)) :
    processLoop total sa fa st n0 (l :: rest) =
      processLoop total sa fa (processLine total st (n0+1) l) (n0+1) rest := by
  simp only [processLoop]
  rw [if_neg (by rw [hs]; simp), if_neg hf]

theorem processLoop_none_ok (total : Nat) (sa : Option Nat) :
    ∀ (ls : List (List Char)) (st : PState) (n0 : Nat),
      processLoop total sa none st n0 ls =
        .ok (stateOf (processLoop total sa none st n0 ls)) := by
  intro ls
  induction ls with
  | nil => intro st n0; rfl
  | cons l rest ih =>
    intro st n0
    cases hs : stopObserved sa (n0+1) with
    | true =>
      rw [processLoop_cons_stop total sa none st n0 l rest hs]
      rfl
    | false =>
      rw [processLoop_cons_go total sa none st n0 l rest hs (by simp)]
      exact ih _ _

theorem final_emit_ok (me : Bool) (mc tgt : List Char) (sa : Option Nat) :
    (process_files me mc tgt sa none).emits.getLast? =
      some ((process_files me mc tgt sa none).totalLines,
        (process_files me mc tgt sa none).processedLines,
        (process_files me mc tgt sa none).validLines,
        (process_files me mc tgt sa none).rejectedLines) := by
  have hok := processLoop_none_ok (pyLines tgt).length sa (pyLines tgt) (initState me mc) 0
  generalize hfin : stateOf (processLoop (pyLines tgt).length sa none (initState me mc) 0
    (pyLines tgt)) = fin at hok
  simp only [process_files, hok, List.getLast?_concat]

theorem process_files_ok_fields (me : Bool) (mc tgt : List Char) (sa : Option Nat) :
    (process_files me mc tgt sa none).closeCount = 1 ∧
    (process_files me mc tgt sa none).completeEmitted = true ∧
    (process_files me mc tgt sa none).errorEmitted = false := by
  have hok := processLoop_none_ok (pyLines tgt).length sa (pyLines tgt) (initState me mc) 0
  generalize hfin : stateOf (processLoop (pyLines tgt).length sa none (initState me mc) 0
    (pyLines tgt)) = fin at hok
  simp only [process_files, hok]
  refine ⟨?_, ?_, ?_⟩ <;> trivial

/-- Claim C9: a snapshot `(total, processed, valid, rejected)` is
emitted while processing exactly when the processed line number is a
multiple of 100 or equals the total, and every run that terminates
normally or by stop ends with a final snapshot carrying the exact final
counters (even when the final count satisfies neither throttle
condition). -/
theorem claim9_progress :
    (∀ (total : Nat) (st : PState) (n : Nat) (line : List Char),
      (processLine total st n line).emits =
        if n % 100 = 0 ∨ n = total then
          st.emits ++ [(total, (processLine total st n line).processedLines,
            (processLine total st n line).validLines,
            (processLine total st n line).rejectedLines)]
        else st.emits) ∧
    (∀ (me : Bool) (mc tgt : List Char) (sa : Option Nat),
      (process_files me mc tgt sa none).emits.getLast? =
        some ((process_files me mc tgt sa none).totalLines,
          (process_files me mc tgt sa none).processedLines,
          (process_files me mc tgt sa none).validLines,
          (process_files me mc tgt sa none).rejectedLines)) := by
  exact ⟨processLine_emits, final_emit_ok⟩

theorem processLoop_stop_take (total N : Nat) :
    ∀ (ls : List (List Char)) (st : PState) (n0 : Nat),
      processLoop total (some N) none st n0 ls =
        processLoop total none none st n0 (ls.take (N - n0)) := by
  intro ls
  induction ls with
  | nil =>
    intro st n0
    rw [List.take_nil, processLoop_nil, processLoop_nil]
  | cons l rest ih =>
    intro st n0
    by_cases hstop : N < n0 + 1
    · have h0 : N - n0 = 0 := by omega
      have hs : stopObserved (some N) (n0+1) = true := by
        rw [stopObserved_some_eq]
        exact decide_eq_true hstop
      rw [processLoop_cons_stop total (some N) none st n0 l rest hs, h0, List.take_zero,
        processLoop_nil]
    · have hpos : N - n0 = (N - (n0+1)) + 1 := by omega
      have hs : stopObserved (some N) (n0+1) = false := by
        rw [stopObserved_some_eq]
        exact decide_eq_false hstop
      rw [processLoop_cons_go total (some N) none st n0 l rest hs (by simp), hpos,
        List.take_succ_cons,
        processLoop_cons_go total none none st n0 l (List.take (N - (n0+1)) rest)
          (stopObserved_none_eq (n0+1)) (by simp)]
      exact ih _ _

theorem loop_processed (total : Nat) :
    ∀ (ls : List (List Char)) (st : PState) (n0 : Nat),
      st.processedLines = n0 →
      (stateOf (processLoop total none none st n0 ls)).processedLines = n0 + ls.length := by
  intro ls
  induction ls with
  | nil =>
    intro st n0 h
    simpa [processLoop, stateOf] using h
  | cons l rest ih =>
    intro st n0 h
    rw [processLoop_cons_go total none none st n0 l rest (stopObserved_none_eq (n0+1)) (by simp)]
    have := ih (processLine total st (n0+1) l) (n0+1) (processLine_processed total st (n0+1) l)
    rw [this]
    simp only [List.length_cons]
    omega

theorem loop_spec (total : Nat) :
    ∀ (ls : List (List Char)) (st : PState) (n0 : Nat),
      (stateOf (processLoop total none none st n0 ls)).masterContent
          = st.masterContent ++ joinRecs (acceptedRecs st.existing n0 ls) ∧
        (stateOf (processLoop total none none st n0 ls)).existing
          = (acceptedRecs st.existing n0 ls).reverse ++ st.existing ∧
        (stateOf (processLoop total none none st n0 ls)).validLines
          = st.validLines + (acceptedRecs st.existing n0 ls).length := by
  intro ls
  induction ls with
  | nil =>
    intro st n0
    simp [processLoop, stateOf, acceptedRecs, joinRecs]
  | cons l rest ih =>
    intro st n0
    rw [processLoop_cons_go total none none st n0 l rest (stopObserved_none_eq (n0+1)) (by simp)]
    rcases hv : validate_line l (n0+1) with ⟨b, r, c⟩
    cases b with
    | false =>
      obtain ⟨hvl, -, hma, hex, -⟩ := processLine_invalid total st (n0+1) l r c hv
      have hacc : acceptedRecs st.existing n0 (l :: rest) =
          acceptedRecs st.existing (n0+1) rest := by
        simp only [acceptedRecs, hv]
        rfl
      obtain ⟨i1, i2, i3⟩ := ih (processLine total st (n0+1) l) (n0+1)
      rw [hacc]
      rw [i1, i2, i3, hvl, hma, hex]
      exact ⟨rfl, rfl, rfl⟩
    | true =>
      by_cases hm : c ∈ st.existing
      · have hc : st.existing.contains c = true := List.elem_iff.mpr hm
        obtain ⟨hvl, -, hma, hex, -⟩ := processLine_valid_dup total st (n0+1) l r c hv hm
        have hacc : acceptedRecs st.existing n0 (l :: rest) =
            acceptedRecs st.existing (n0+1) rest := by
          simp only [acceptedRecs, hv, hc]
          rfl
        obtain ⟨i1, i2, i3⟩ := ih (processLine total st (n0+1) l) (n0+1)
        rw [hacc]
        rw [i1, i2, i3, hvl, hma, hex]
        exact ⟨rfl, rfl, rfl⟩
      · have hc : st.existing.contains c = false := by
          simp [List.elem_iff]
          exact hm
        obtain ⟨hvl, -, hma, hex, -⟩ := processLine_valid_new total st (n0+1) l r c hv hm
        have hacc : acceptedRecs st.existing n0 (l :: rest) =
            c :: acceptedRecs (c :: st.existing) (n0+1) rest := by
          simp only [acceptedRecs, hv, hc]
          rfl
        obtain ⟨i1, i2, i3⟩ := ih (processLine total st (n0+1) l) (n0+1)
        rw [hacc]
        rw [i1, i2, i3, hvl, hma, hex]
        refine ⟨?_, ?_, ?_⟩
        · simp [joinRecs]
        · simp
        · simp only [List.length_cons]
          omega

/-- Claim C7: a stop observed after `N` fully processed lines makes the
loop exit at the boundary — the run is exactly the uninterrupted run
over the first `N` lines; the final `processed` counter is `N`; the
master file holds its pre-run content plus precisely the valid
non-duplicate records among those `N` lines, in order; and the stop
path runs the same teardown as completion (close once, final snapshot,
completion signal). -/
theorem claim7_stop (me : Bool) (mc tgt : List Char) (N : Nat)
    (hN : N ≤ (pyLines tgt).length) :
    processLoop (pyLines tgt).length (some N) none (initState me mc) 0 (pyLines tgt) =
      processLoop (pyLines tgt).length none none (initState me mc) 0
        ((pyLines tgt).take N) ∧
    (process_files me mc tgt (some N) none).processedLines = N ∧
    (process_files me mc tgt (some N) none).master =
      (initState me mc).masterContent ++
        joinRecs (acceptedRecs (initState me mc).existing 0 ((pyLines tgt).take N)) ∧
    (process_files me mc tgt (some N) none).closeCount = 1 ∧
    (process_files me mc tgt (some N) none).completeEmitted = true ∧
    (process_files me mc tgt (some N) none).emits.getLast? =
      some ((process_files me mc tgt (some N) none).totalLines, N,
        (process_files me mc tgt (some N) none).validLines,
        (process_files me mc tgt (some N) none).rejectedLines) := by
  have htake := processLoop_stop_take (pyLines tgt).length N (pyLines tgt) (initState me mc) 0
  rw [Nat.sub_zero] at htake
  have hlen : ((pyLines tgt).take N).length = N := by
    rw [List.length_take]
    omega
  obtain ⟨hp, -, -, hm, -⟩ := process_files_fields me mc tgt (some N) none
  have hproc : (process_files me mc tgt (some N) none).processedLines = N := by
    rw [hp, htake, loop_processed (pyLines tgt).length ((pyLines tgt).take N)
      (initState me mc) 0 rfl, hlen]
    omega
  refine ⟨htake, hproc, ?_, ?_, ?_, ?_⟩
  · rw [hm, htake]
    exact (loop_spec (pyLines tgt).length ((pyLines tgt).take N) (initState me mc) 0).1
  · exact (process_files_ok_fields me mc tgt (some N)).1
  · exact (process_files_ok_fields me mc tgt (some N)).2.1
  · have hfe := final_emit_ok me mc tgt (some N)
    rw [hproc] at hfe
    exact hfe

/-- Concrete instantiation of `claim7_stop`: stopping a two-line run
after one processed line keeps only the first line's record and reports
`processed = 1`. -/
theorem claim7_stop_witness :
    (process_files false [] (chars ("a:b:c\nd:e:f")) (some 1) none).processedLines = 1 ∧
    (process_files false [] (chars ("a:b:c\nd:e:f")) (some 1) none).master =
      (initState false []).masterContent ++
        joinRecs (acceptedRecs (initState false []).existing 0
          ((pyLines (chars ("a:b:c\nd:e:f"))).take 1)) := by
  have h := claim7_stop false [] (chars ("a:b:c\nd:e:f")) 1 (by decide)
  exact ⟨h.2.1, h.2.2.1⟩

theorem process_files_error_fields (me : Bool) (mc tgt : List Char) (sa fa : Option Nat)
    (he : (process_files me mc tgt sa fa).errorEmitted = true) :
    (process_files me mc tgt sa fa).closeCount = 0 ∧
    (process_files me mc tgt sa fa).completeEmitted = false := by
  revert he
  unfold process_files
  cases h : processLoop (pyLines tgt).length sa fa (initState me mc) 0 (pyLines tgt) <;>
    simp [h]

/-- Claim C5 counterexample: a run in which an I/O exception escapes
while the first line is being handled fires the error signal without
the master-file handle or the rejection logs ever being closed — the
claimed guaranteed release on every abort path does not hold. -/
theorem claim5_cex :
    (process_files false [] (chars ("a:b:c")) none (some 1)).errorEmitted = true ∧
    (process_files false [] (chars ("a:b:c")) none (some 1)).closeCount = 0 ∧
    (process_files false [] (chars ("a:b:c")) none (some 1)).completeEmitted = false := by
  decide

/-- Claim C5 (amended): on normal completion and on stop the close
sequence (`master_fd.close()` followed by `close_logs`) runs exactly
once before the completion signal; but on a fatal-error path the
resources are not closed — the `except` branch emits only the error
signal and the `finally` block merely clears the running flag. -/
theorem claim5_close :
    (∀ (me : Bool) (mc tgt : List Char) (sa : Option Nat),
      (process_files me mc tgt sa none).closeCount = 1 ∧
      (process_files me mc tgt sa none).completeEmitted = true ∧
      (process_files me mc tgt sa none).errorEmitted = false) ∧
    (∀ (me : Bool) (mc tgt : List Char) (sa fa : Option Nat),
      (process_files me mc tgt sa fa).errorEmitted = true →
      (process_files me mc tgt sa fa).closeCount = 0 ∧
      (process_files me mc tgt sa fa).completeEmitted = false) :=
  ⟨process_files_ok_fields, process_files_error_fields⟩

/-- Concrete instantiation of `claim5_close` on a failing run. -/
theorem claim5_close_witness :
    (process_files false [] (chars ("a:b:c")) none (some 1)).closeCount = 0 ∧
    (process_files false [] (chars ("a:b:c")) none (some 1)).completeEmitted = false :=
  claim5_close.2 false [] (chars ("a:b:c")) none (some 1) (by decide)

/-- Claim C6 counterexample: the line `  a  ` is rejected as
`Not Enough Parts`, and the entry actually appended is
`Line 1: a` — the stripped text — not `Line 1:   a  ` built from the
original line text as the claim states. -/
theorem claim6_cex :
    (process_files false [] (chars ("  a  ")) none none).logNEP
        = [fmtEntry 1 (chars ("a"))] ∧
    (process_files false [] (chars ("  a  ")) none none).logNEP
        ≠ [fmtEntry 1 (chars ("  a  "))] := by
  decide

/-- Claim C6 (amended): every rejected line appends exactly one entry
`Line <n>: <content>` to the log named after its reason
(`Not Enough Parts.txt`, `Empty Line.txt`, `Duplicate.txt`), where the
content is the line stripped of leading and trailing whitespace (the
validator's cleaned line — empty for `Empty Line` rejections), not the
original raw text. -/
theorem claim6_logs (total : Nat) (st : PState) (n : Nat) (line reason clean : List Char) :
    (validate_line line n = (false, reason, clean) →
      clean = pyStrip line ∧
      (reason = chars ("Empty Line") ∨ reason = chars ("Not Enough Parts")) ∧
      (reason = chars ("Empty Line") →
        (processLine total st n line).logEmpty = st.logEmpty ++ [fmtEntry n clean] ∧
        (processLine total st n line).logNEP = st.logNEP ∧
        (processLine total st n line).logDup = st.logDup) ∧
      (reason = chars ("Not Enough Parts") →
        (processLine total st n line).logNEP = st.logNEP ++ [fmtEntry n clean] ∧
        (processLine total st n line).logEmpty = st.logEmpty ∧
        (processLine total st n line).logDup = st.logDup)) ∧
    (validate_line line n = (true, reason, clean) → clean ∈ st.existing →
      (processLine total st n line).logDup = st.logDup ++ [fmtEntry n clean] ∧
      (processLine total st n line).logNEP = st.logNEP ∧
      (processLine total st n line).logEmpty = st.logEmpty) ∧
    logFileName (chars ("Empty Line")) = chars ("Empty Line.txt") ∧
    logFileName (chars ("Not Enough Parts")) = chars ("Not Enough Parts.txt") ∧
    logFileName (chars ("Duplicate")) = chars ("Duplicate.txt") := by
  refine ⟨?_, ?_, by decide, by decide, by decide⟩
  · intro hv
    have hclean : clean = pyStrip line := by
      have := validate_clean line n
      rw [hv] at this
      exact this
    refine ⟨hclean, validate_reason_cases line n reason clean hv, ?_, ?_⟩
    · intro hreason
      subst hreason
      obtain ⟨-, -, -, -, hd, hn, he⟩ := processLine_invalid total st n line _ clean hv
      rw [hd, hn, he, log_rejection_empty]
      exact ⟨rfl, rfl, rfl⟩
    · intro hreason
      subst hreason
      obtain ⟨-, -, -, -, hd, hn, he⟩ := processLine_invalid total st n line _ clean hv
      rw [hd, hn, he, log_rejection_nep]
      exact ⟨rfl, rfl, rfl⟩
  · intro hv hmem
    obtain ⟨-, -, -, -, hd, hn, he⟩ := processLine_valid_dup total st n line reason clean hv hmem
    exact ⟨hd, hn, he⟩

/-- Concrete instantiation of `claim6_logs` on a stripped rejected line. -/
theorem claim6_logs_witness :
    (processLine 1 (initState false []) 1 (chars ("  a  "))).logNEP =
      (initState false []).logNEP ++ [fmtEntry 1 (chars ("a"))] := by
  have h := claim6_logs 1 (initState false []) 1 (chars ("  a  "))
    (chars ("Not Enough Parts")) (chars ("a"))
  exact ((h.1 (by decide)).2.2.2 rfl).1

theorem dropWhile_idem (p : Char → Bool) :
    ∀ (l : List Char), (l.dropWhile p).dropWhile p = l.dropWhile p := by
  intro l
  induction l with
  | nil => rfl
  | cons c cs ih =>
    rw [List.dropWhile_cons]
    by_cases h : p c = true
    · rw [if_pos h]
      exact ih
    · rw [if_neg h, List.dropWhile_cons, if_neg h]

theorem head?_dropWhile (p : Char → Bool) :
    ∀ (l : List Char) (a : Char), (l.dropWhile p).head? = some a → p a = false := by
  intro l
  induction l with
  | nil =>
    intro a h
    simp at h
  | cons c cs ih =>
    intro a h
    rw [List.dropWhile_cons] at h
    by_cases hc : p c = true
    · rw [if_pos hc] at h
      exact ih a h
    · rw [if_neg hc] at h
      simp at h
      rw [← h]
      simpa using hc

theorem getLast?_dropWhile (p : Char → Bool) :
    ∀ (l : List Char), l.dropWhile p ≠ [] → (l.dropWhile p).getLast? = l.getLast? := by
  intro l
  induction l with
  | nil => intro h; simp at h
  | cons c cs ih =>
    intro h
    rw [List.dropWhile_cons] at h ⊢
    by_cases hc : p c = true
    · rw [if_pos hc] at h ⊢
      have hcs : cs ≠ [] := by
        intro hnil
        rw [hnil] at h
        simp at h
      rw [ih h]
      cases cs with
      | nil => exact absurd rfl hcs
      | cons x xs => rw [List.getLast?_cons_cons]
    · rw [if_neg hc]

theorem mem_pyStrip (l : List Char) (a : Char) (ha : a ∈ pyStrip l) : a ∈ l := by
  have h1 : a ∈ pyStripR l := (List.dropWhile_sublist isPySpace).mem ha
  have h2 : a ∈ (l.reverse.dropWhile isPySpace) := by
    simpa [pyStripR] using h1
  have h3 : a ∈ l.reverse := (List.dropWhile_sublist isPySpace).mem h2
  simpa using h3

theorem pyStripR_getLast?_no_space (l : List Char) (a : Char)
    (h : (pyStripR l).getLast? = some a) : isPySpace a = false := by
  rw [pyStripR, List.getLast?_reverse] at h
  exact head?_dropWhile isPySpace l.reverse a h

theorem pyStripR_fix (z : List Char)
    (h : ∀ a, z.getLast? = some a → isPySpace a = false) : pyStripR z = z := by
  cases hz : z.reverse with
  | nil =>
    have hznil : z = [] := by simpa using congrArg List.reverse hz
    rw [hznil]
    rfl
  | cons a w =>
    have hlast : z.getLast? = some a := by
      rw [List.getLast?_eq_head?_reverse, hz]
      rfl
    have hna : isPySpace a = false := h a hlast
    rw [pyStripR, hz, List.dropWhile_cons, if_neg (by simp [hna])]
    rw [← hz]
    simp

theorem pyStrip_idem (l : List Char) : pyStrip (pyStrip l) = pyStrip l := by
  have hfixR : pyStripR (pyStrip l) = pyStrip l := by
    apply pyStripR_fix
    intro a hl
    have hne : pyStrip l ≠ [] := by
      intro hnil
      rw [hnil] at hl
      simp at hl
    rw [pyStrip, getLast?_dropWhile isPySpace (pyStripR l) (by rw [← pyStrip]; exact hne)]
      at hl
    exact pyStripR_getLast?_no_space l a hl
  rw [pyStrip, hfixR, pyStrip, dropWhile_idem]

theorem pyStripR_append_nl (s : List Char) : pyStripR (s ++ ['\n']) = pyStripR s := by
  rw [pyStripR, pyStripR, List.reverse_append]
  simp only [List.reverse_cons, List.reverse_nil, List.nil_append, List.singleton_append]
  rw [List.dropWhile_cons, if_pos (by decide)]

theorem pyStrip_append_nl (s : List Char) : pyStrip (s ++ ['\n']) = pyStrip s := by
  rw [pyStrip, pyStripR_append_nl, pyStrip]

theorem pyLinesAux_nonl_prefix :
    ∀ (s acc t : List Char), '\n' ∉ s →
      pyLinesAux acc (s ++ t) = pyLinesAux (s.reverse ++ acc) t := by
  intro s
  induction s with
  | nil =>
    intro acc t h
    simp
  | cons c s ih =>
    intro acc t h
    have hc : ¬(c = '\n') := by
      intro hcc
      exact h (hcc ▸ List.mem_cons_self c s)
    rw [List.cons_append]
    simp only [pyLinesAux]
    rw [if_neg hc, ih (c :: acc) t (fun hm => h (List.mem_cons_of_mem c hm))]
    rw [List.reverse_cons, List.append_assoc]
    rfl

theorem pyLines_single_nl (s : List Char) (h : '\n' ∉ s) :
    pyLines (s ++ ['\n']) = [s ++ ['\n']] := by
  rw [pyLines, pyLinesAux_nonl_prefix s [] ['\n'] h]
  simp [pyLinesAux]

theorem pyLinesAux_append_nl :
    ∀ (xs acc ys : List Char),
      pyLinesAux acc ((xs ++ ['\n']) ++ ys) =
        pyLinesAux acc (xs ++ ['\n']) ++ pyLinesAux [] ys := by
  intro xs
  induction xs with
  | nil =>
    intro acc ys
    simp [pyLinesAux]
  | cons c xs ih =>
    intro acc ys
    by_cases hc : c = '\n'
    · subst hc
      simp only [List.cons_append, pyLinesAux, if_true, List.append_eq]
      rw [ih [] ys]
    · simp only [List.cons_append, pyLinesAux]
      rw [if_neg hc, if_neg hc]
      exact ih (c :: acc) ys

theorem pyLines_append_nl_end (cs ds : List Char) (h : cs.getLast? = some '\n') :
    pyLines (cs ++ ds) = pyLines cs ++ pyLines ds := by
  obtain ⟨xs, rfl⟩ := List.getLast?_eq_some_iff.mp h
  rw [pyLines, pyLines, pyLines, pyLinesAux_append_nl xs [] ds]

theorem pyLines_shape :
    ∀ (cs acc l : List Char), '\n' ∉ acc → l ∈ pyLinesAux acc cs →
      ('\n' ∉ l ∨ ∃ s, l = s ++ ['\n'] ∧ '\n' ∉ s) := by
  intro cs
  induction cs with
  | nil =>
    intro acc l hacc hl
    simp only [pyLinesAux] at hl
    by_cases hx : acc = []
    · rw [if_pos hx] at hl
      simp at hl
    · rw [if_neg hx] at hl
      simp at hl
      subst hl
      left
      simpa using hacc
  | cons c cs ih =>
    intro acc l hacc hl
    simp only [pyLinesAux] at hl
    by_cases hc : c = '\n'
    · rw [if_pos hc] at hl
      rcases List.mem_cons.mp hl with h1 | h2
      · right
        exact ⟨acc.reverse, h1, by simpa using hacc⟩
      · exact ih [] l (by simp) h2
    · rw [if_neg hc] at hl
      refine ih (c :: acc) l ?_ hl
      intro hm
      rcases List.mem_cons.mp hm with h1 | h2
      · exact hc h1.symm
      · exact hacc h2

theorem mem_pyLines_strip_no_nl (cs l : List Char) (hl : l ∈ pyLines cs) :
    '\n' ∉ pyStrip l := by
  rcases pyLines_shape cs [] l (by simp) hl with h | ⟨s, rfl, hs⟩
  · intro hm
    exact h (mem_pyStrip l '\n' hm)
  · rw [pyStrip_append_nl]
    intro hm
    exact hs (mem_pyStrip s '\n' hm)

theorem pyLines_joinRecs (recs : List (List Char)) (h : ∀ r ∈ recs, '\n' ∉ r) :
    pyLines (joinRecs recs) = recs.map (fun r => r ++ ['\n']) := by
  induction recs with
  | nil => rfl
  | cons r rest ih =>
    have hr : '\n' ∉ r := h r (List.mem_cons_self r rest)
    have hjr : joinRecs (r :: rest) = (r ++ ['\n']) ++ joinRecs rest := by
      simp [joinRecs]
    rw [hjr, pyLines, pyLinesAux_append_nl r [] (joinRecs rest)]
    have h1 : pyLinesAux [] (r ++ ['\n']) = [r ++ ['\n']] := pyLines_single_nl r hr
    have h2 : pyLinesAux [] (joinRecs rest) = rest.map (fun x => x ++ ['\n']) :=
      ih (fun x hx => h x (List.mem_cons_of_mem r hx))
    rw [h1, h2]
    simp

theorem acceptedRecs_from :
    ∀ (ls : List (List Char)) (exist : List (List Char)) (n0 : Nat) (rec : List Char),
      rec ∈ acceptedRecs exist n0 ls → ∃ l, l ∈ ls ∧ rec = pyStrip l := by
  intro ls
  induction ls with
  | nil =>
    intro exist n0 rec h
    simp [acceptedRecs] at h
  | cons l rest ih =>
    intro exist n0 rec h
    simp only [acceptedRecs] at h
    by_cases hb : (validate_line l (n0+1)).1 = true
    · rw [if_pos hb] at h
      by_cases hc : exist.contains (validate_line l (n0+1)).2.2 = true
      · rw [if_pos hc] at h
        obtain ⟨l2, hl2, hrec⟩ := ih exist (n0+1) rec h
        exact ⟨l2, List.mem_cons_of_mem l hl2, hrec⟩
      · rw [if_neg hc] at h
        rcases List.mem_cons.mp h with h1 | h2
        · refine ⟨l, List.mem_cons_self l rest, ?_⟩
          rw [h1, validate_clean]
        · obtain ⟨l2, hl2, hrec⟩ := ih _ (n0+1) rec h2
          exact ⟨l2, List.mem_cons_of_mem l hl2, hrec⟩
    · rw [if_neg hb] at h
      obtain ⟨l2, hl2, hrec⟩ := ih exist (n0+1) rec h
      exact ⟨l2, List.mem_cons_of_mem l hl2, hrec⟩

theorem validate_at (l : List Char) (n : Nat) (hb : (validate_line l 0).1 = true) :
    validate_line l n = (true, (validate_line l 0).2.1, (validate_line l 0).2.2) := by
  rw [validate_line_num_irrel l n 0]
  rcases hv : validate_line l 0 with ⟨b, r, c⟩
  rw [hv] at hb
  simp at hb
  rw [hb]

theorem loop_valid_mem (total : Nat) :
    ∀ (ls : List (List Char)) (st : PState) (n0 : Nat) (l : List Char),
      l ∈ ls → (validate_line l 0).1 = true →
      (validate_line l 0).2.2 ∈ (stateOf (processLoop total none none st n0 ls)).existing := by
  intro ls
  induction ls with
  | nil =>
    intro st n0 l hl
    simp at hl
  | cons hd rest ih =>
    intro st n0 l hl hb
    rw [processLoop_cons_go total none none st n0 hd rest (stopObserved_none_eq (n0+1))
      (by simp)]
    rcases List.mem_cons.mp hl with h1 | h2
    · subst h1
      have hmem : (validate_line l 0).2.2 ∈ (processLine total st (n0+1) l).existing :=
        processLine_valid_mem total st (n0+1) l (validate_line l 0).2.1
          (validate_line l 0).2.2 (validate_at l (n0+1) hb)
      exact loop_existing_mono total none none rest (processLine total st (n0+1) l) (n0+1)
        (validate_line l 0).2.2 hmem
    · exact ih (processLine total st (n0+1) hd) (n0+1) l h2 hb

theorem loop_no_accept (total : Nat) :
    ∀ (ls : List (List Char)) (st : PState) (n0 : Nat),
      (∀ l ∈ ls, (validate_line l 0).1 = true → (validate_line l 0).2.2 ∈ st.existing) →
      (stateOf (processLoop total none none st n0 ls)).masterContent = st.masterContent ∧
      (stateOf (processLoop total none none st n0 ls)).validLines = st.validLines ∧
      (stateOf (processLoop total none none st n0 ls)).existing = st.existing := by
  intro ls
  induction ls with
  | nil =>
    intro st n0 hva
    exact ⟨rfl, rfl, rfl⟩
  | cons hd rest ih =>
    intro st n0 hva
    rw [processLoop_cons_go total none none st n0 hd rest (stopObserved_none_eq (n0+1))
      (by simp)]
    rcases hv0 : validate_line hd 0 with ⟨b, r, c⟩
    cases b with
    | false =>
      have hv : validate_line hd (n0+1) = (false, r, c) := by
        rw [validate_line_num_irrel hd (n0+1) 0, hv0]
      obtain ⟨hvl, -, hma, hex, -⟩ := processLine_invalid total st (n0+1) hd r c hv
      obtain ⟨i1, i2, i3⟩ := ih (processLine total st (n0+1) hd) (n0+1) (by
        intro l hl hb
        rw [hex]
        exact hva l (List.mem_cons_of_mem hd hl) hb)
      rw [i1, i2, i3, hvl, hma, hex]
      exact ⟨rfl, rfl, rfl⟩
    | true =>
      have hmem : c ∈ st.existing := by
        have := hva hd (List.mem_cons_self hd rest) (by rw [hv0])
        rw [hv0] at this
        exact this
      have hv : validate_line hd (n0+1) = (true, r, c) := by
        rw [validate_line_num_irrel hd (n0+1) 0, hv0]
      obtain ⟨hvl, -, hma, hex, -⟩ := processLine_valid_dup total st (n0+1) hd r c hv hmem
      obtain ⟨i1, i2, i3⟩ := ih (processLine total st (n0+1) hd) (n0+1) (by
        intro l hl hb
        rw [hex]
        exact hva l (List.mem_cons_of_mem hd hl) hb)
      rw [i1, i2, i3, hvl, hma, hex]
      exact ⟨rfl, rfl, rfl⟩

theorem initState_pre (me : Bool) (mc : List Char) :
    (initState me mc).existing =
      (pyLines (initState me mc).masterContent).map pyStrip := by
  cases me <;> simp [initState, pyLines, pyLinesAux]

theorem initState_true_master (x : List Char) : (initState true x).masterContent = x := rfl

/-- Claim C4 counterexample: with a pre-existing master file `x` that
does not end in a newline, the single-line target `a:b:c` is accepted
by the first run (master becomes `xa:b:c` on one line plus a newline),
and the second run over the same target accepts it again — one new
record, and the master file changes. -/
theorem claim4_cex :
    (process_files true
        (process_files true (chars ("x")) (chars ("a:b:c")) none none).master
        (chars ("a:b:c")) none none).validLines = 1 ∧
    (process_files true
        (process_files true (chars ("x")) (chars ("a:b:c")) none none).master
        (chars ("a:b:c")) none none).master ≠
      (process_files true (chars ("x")) (chars ("a:b:c")) none none).master := by
  decide

/-- Claim C4 (amended): provided the pre-run master file is empty or
ends with a newline character, a second run of the pipeline with the
same target file against the master file produced by the first run
accepts zero new records, leaves the master file unchanged, and rejects
every processed line. -/
theorem claim4_idem (me : Bool) (mc tgt : List Char)
    (h0 : (initState me mc).masterContent = [] ∨
      (initState me mc).masterContent.getLast? = some '\n') :
    (process_files true (process_files me mc tgt none none).master tgt none none).validLines
        = 0 ∧
    (process_files true (process_files me mc tgt none none).master tgt none none).master
        = (process_files me mc tgt none none).master ∧
    (process_files true (process_files me mc tgt none none).master tgt none
        none).rejectedLines
      = (process_files true (process_files me mc tgt none none).master tgt none
        none).processedLines := by
  obtain ⟨-, -, -, hm1, -⟩ := process_files_fields me mc tgt none none
  obtain ⟨l1m, l1e, -⟩ := loop_spec (pyLines tgt).length (pyLines tgt) (initState me mc) 0
  have hrecs_nl : ∀ r ∈ acceptedRecs (initState me mc).existing 0 (pyLines tgt),
      '\n' ∉ r := by
    intro r hr
    obtain ⟨l, hl, hrl⟩ := acceptedRecs_from (pyLines tgt) _ 0 r hr
    rw [hrl]
    exact mem_pyLines_strip_no_nl tgt l hl
  have hrecs_fix : ∀ r ∈ acceptedRecs (initState me mc).existing 0 (pyLines tgt),
      pyStrip r = r := by
    intro r hr
    obtain ⟨l, hl, hrl⟩ := acceptedRecs_from (pyLines tgt) _ 0 r hr
    rw [hrl]
    exact pyStrip_idem l
  have hr1m : (process_files me mc tgt none none).master =
      (initState me mc).masterContent ++
        joinRecs (acceptedRecs (initState me mc).existing 0 (pyLines tgt)) := by
    rw [hm1, l1m]
  have hsplit : pyLines ((initState me mc).masterContent ++
        joinRecs (acceptedRecs (initState me mc).existing 0 (pyLines tgt))) =
      pyLines (initState me mc).masterContent ++
        (acceptedRecs (initState me mc).existing 0 (pyLines tgt)).map
          (fun r => r ++ ['\n']) := by
    rcases h0 with h0 | h0
    · rw [h0, List.nil_append, pyLines_joinRecs _ hrecs_nl]
      have hemp : pyLines ([] : List Char) = [] := rfl
      rw [hemp, List.nil_append]
    · rw [pyLines_append_nl_end _ _ h0, pyLines_joinRecs _ hrecs_nl]
  have hex2 : (initState true (process_files me mc tgt none none).master).existing
      = (pyLines (initState me mc).masterContent).map pyStrip ++
        acceptedRecs (initState me mc).existing 0 (pyLines tgt) := by
    rw [initState_pre true _, initState_true_master, hr1m, hsplit, List.map_append]
    congr 1
    rw [List.map_map]
    have hpt : ∀ r ∈ acceptedRecs (initState me mc).existing 0 (pyLines tgt),
        (pyStrip ∘ fun r => r ++ ['\n']) r = id r := by
      intro r hr
      simp only [Function.comp, id]
      rw [pyStrip_append_nl]
      exact hrecs_fix r hr
    rw [List.map_congr_left hpt, List.map_id]
  have hmm : ∀ x, x ∈ (initState true (process_files me mc tgt none none).master).existing ↔
      x ∈ (stateOf (processLoop (pyLines tgt).length none none (initState me mc) 0
        (pyLines tgt))).existing := by
    intro x
    rw [hex2, l1e, ← initState_pre me mc]
    simp only [List.mem_append, List.mem_reverse]
    exact or_comm
  have hnoacc := loop_no_accept (pyLines tgt).length (pyLines tgt)
    (initState true (process_files me mc tgt none none).master) 0 (by
      intro l hl hb
      exact (hmm _).mpr (loop_valid_mem (pyLines tgt).length (pyLines tgt)
        (initState me mc) 0 l hl hb))
  obtain ⟨hp2, hv2, hr2, hm2, -⟩ :=
    process_files_fields true (process_files me mc tgt none none).master tgt none none
  have hval0 : (stateOf (processLoop (pyLines tgt).length none none
      (initState true (process_files me mc tgt none none).master) 0
      (pyLines tgt))).validLines = 0 := by
    rw [hnoacc.2.1]
    rfl
  refine ⟨?_, ?_, ?_⟩
  · rw [hv2, hval0]
  · rw [hm2, hnoacc.1, initState_true_master]
  · have hinv := loop_inv (pyLines tgt).length none none (pyLines tgt)
      (initState true (process_files me mc tgt none none).master) 0
      (by simp [initState]) (by simp [initState]) (by omega)
    rw [hp2, hr2]
    omega

/-- Concrete instantiation of `claim4_idem`: empty initial master file,
one valid target line — the second run accepts nothing and leaves the
master unchanged. -/
theorem claim4_idem_witness :
    (process_files true (process_files false [] (chars ("a:b:c")) none none).master
        (chars ("a:b:c")) none none).validLines = 0 ∧
    (process_files true (process_files false [] (chars ("a:b:c")) none none).master
        (chars ("a:b:c")) none none).master
      = (process_files false [] (chars ("a:b:c")) none none).master := by
  have h := claim4_idem false [] (chars ("a:b:c")) (Or.inl rfl)
  exact ⟨h.1, h.2.1⟩

theorem chomp_append_nl (s : List Char) : chomp (s ++ ['\n']) = s := by
  rw [chomp, if_pos (List.getLast?_concat s), List.dropLast_concat]

theorem chomp_no_nl (s : List Char) (h : '\n' ∉ s) : chomp s = s := by
  rw [chomp, if_neg]
  intro hc
  obtain ⟨l2, rfl⟩ := List.getLast?_eq_some_iff.mp hc
  exact h (by simp)

theorem pyLines_nonl (s : List Char) (hne : s ≠ []) (h : '\n' ∉ s) :
    pyLines s = [s] := by
  rw [pyLines, ← List.append_nil s, pyLinesAux_nonl_prefix s [] [] h]
  simp only [pyLinesAux, List.append_nil]
  rw [if_neg (by simpa using hne)]
  simp

theorem split_last_line :
    ∀ (c0 : List Char), c0 ≠ [] → c0.getLast? ≠ some '\n' →
      ∃ body lastSeg, c0 = body ++ lastSeg ∧
        (body = [] ∨ body.getLast? = some '\n') ∧ lastSeg ≠ [] ∧ '\n' ∉ lastSeg := by
  intro c0
  induction c0 with
  | nil =>
    intro h
    exact absurd rfl h
  | cons c cs ih =>
    intro hne hlast
    by_cases hcs : cs = []
    · subst hcs
      have hc : ¬(c = '\n') := by
        intro hc
        exact hlast (by rw [hc]; rfl)
      refine ⟨[], [c], rfl, Or.inl rfl, by simp, ?_⟩
      intro hm
      simp at hm
      exact hc hm.symm
    · have hlast2 : cs.getLast? ≠ some '\n' := by
        intro hx
        apply hlast
        cases cs with
        | nil => exact absurd rfl hcs
        | cons d ds =>
          rw [List.getLast?_cons_cons]
          exact hx
      obtain ⟨body, seg, heq, hb, hsne, hsnl⟩ := ih hcs hlast2
      rcases hb with hb | hb
      · rw [hb, List.nil_append] at heq
        by_cases hcnl : c = '\n'
        · exact ⟨[c], seg, by rw [heq]; rfl, Or.inr (by rw [hcnl]; rfl), hsne, hsnl⟩
        · refine ⟨[], c :: seg, by rw [heq]; rfl, Or.inl rfl, by simp, ?_⟩
          intro hm
          rcases List.mem_cons.mp hm with h1 | h2
          · exact hcnl h1.symm
          · exact hsnl h2
      · refine ⟨c :: body, seg, by rw [heq]; rfl, Or.inr ?_, hsne, hsnl⟩
        cases body with
        | nil => simp at hb
        | cons x xs =>
          rw [List.getLast?_cons_cons]
          exact hb

theorem pyLines_master_concat (body lastSeg rec : List Char) (rest : List (List Char))
    (hb : body = [] ∨ body.getLast? = some '\n')
    (hseg : '\n' ∉ lastSeg) (hrec : '\n' ∉ rec) (hrest : ∀ r ∈ rest, '\n' ∉ r) :
    pyLines ((body ++ lastSeg) ++ joinRecs (rec :: rest)) =
      pyLines body ++ (((lastSeg ++ rec) ++ ['\n']) :: rest.map (fun r => r ++ ['\n'])) := by
  have hassoc : (body ++ lastSeg) ++ joinRecs (rec :: rest) =
      body ++ (((lastSeg ++ rec) ++ ['\n']) ++ joinRecs rest) := by
    simp [joinRecs, List.append_assoc]
  rw [hassoc]
  have hmid : pyLines (((lastSeg ++ rec) ++ ['\n']) ++ joinRecs rest) =
      ((lastSeg ++ rec) ++ ['\n']) :: rest.map (fun r => r ++ ['\n']) := by
    rw [pyLines, pyLinesAux_append_nl (lastSeg ++ rec) [] (joinRecs rest)]
    have h1 : pyLinesAux [] ((lastSeg ++ rec) ++ ['\n']) = [(lastSeg ++ rec) ++ ['\n']] :=
      pyLines_single_nl (lastSeg ++ rec) (by
        intro hm
        rcases List.mem_append.mp hm with h | h
        · exact hseg h
        · exact hrec h)
    have h2 : pyLinesAux [] (joinRecs rest) = rest.map (fun r => r ++ ['\n']) :=
      pyLines_joinRecs rest hrest
    rw [h1, h2]
    simp
  rcases hb with hb | hb
  · rw [hb, List.nil_append, hmid]
    rfl
  · rw [pyLines_append_nl_end body _ hb, hmid]

theorem fileLines_master (body lastSeg rec : List Char) (rest : List (List Char))
    (hb : body = [] ∨ body.getLast? = some '\n')
    (hseg : '\n' ∉ lastSeg) (hrec : '\n' ∉ rec) (hrest : ∀ r ∈ rest, '\n' ∉ r) :
    fileLines ((body ++ lastSeg) ++ joinRecs (rec :: rest)) =
      fileLines body ++ ((lastSeg ++ rec) :: rest) := by
  rw [fileLines, pyLines_master_concat body lastSeg rec rest hb hseg hrec hrest,
    List.map_append]
  congr 1
  rw [List.map_cons, chomp_append_nl, List.map_map]
  congr 1
  have hpt : ∀ r ∈ rest, (chomp ∘ fun r => r ++ ['\n']) r = id r := by
    intro r hr
    simp only [Function.comp, id]
    exact chomp_append_nl r
  rw [List.map_congr_left hpt, List.map_id]

theorem fileLines_split (body lastSeg : List Char)
    (hb : body = [] ∨ body.getLast? = some '\n')
    (hsne : lastSeg ≠ []) (hseg : '\n' ∉ lastSeg) :
    fileLines (body ++ lastSeg) = fileLines body ++ [lastSeg] := by
  rcases hb with hb | hb
  · rw [hb, List.nil_append]
    rw [fileLines, pyLines_nonl lastSeg hsne hseg, List.map_cons, chomp_no_nl lastSeg hseg]
    rfl
  · rw [fileLines, pyLines_append_nl_end body lastSeg hb, List.map_append,
      pyLines_nonl lastSeg hsne hseg, List.map_cons, chomp_no_nl lastSeg hseg]
    rfl

/-- Claim C10: each accepted record is appended as the record plus one
newline, so when the pre-existing master file is non-empty and does not
end with a newline, the first record accepted in the run lands on the
same physical line as the master file's last pre-existing line — no
separating newline is inserted — while later records each get their own
line. -/
theorem claim10_append_nonewline (mc tgt rec : List Char) (rest : List (List Char))
    (h1 : mc ≠ []) (h2 : mc.getLast? ≠ some '\n')
    (hacc : acceptedRecs (initState true mc).existing 0 (pyLines tgt) = rec :: rest) :
    (process_files true mc tgt none none).master = mc ++ joinRecs (rec :: rest) ∧
    fileLines (process_files true mc tgt none none).master =
      (fileLines mc).dropLast ++
        (((fileLines mc).getLast?.getD [] ++ rec) :: rest) := by
  obtain ⟨-, -, -, hm1, -⟩ := process_files_fields true mc tgt none none
  obtain ⟨l1m, -, -⟩ := loop_spec (pyLines tgt).length (pyLines tgt) (initState true mc) 0
  have hmaster : (process_files true mc tgt none none).master =
      mc ++ joinRecs (rec :: rest) := by
    rw [hm1, l1m, hacc, initState_true_master]
  have hnl : ∀ r ∈ acceptedRecs (initState true mc).existing 0 (pyLines tgt),
      '\n' ∉ r := by
    intro r hr
    obtain ⟨l, hl, hrl⟩ := acceptedRecs_from (pyLines tgt) _ 0 r hr
    rw [hrl]
    exact mem_pyLines_strip_no_nl tgt l hl
  have hrec : '\n' ∉ rec := hnl rec (by rw [hacc]; exact List.mem_cons_self rec rest)
  have hrest : ∀ r ∈ rest, '\n' ∉ r := by
    intro r hr
    exact hnl r (by rw [hacc]; exact List.mem_cons_of_mem rec hr)
  obtain ⟨body, seg, hmc, hb, hsne, hsnl⟩ := split_last_line mc h1 h2
  have hfm : fileLines (process_files true mc tgt none none).master =
      fileLines body ++ ((seg ++ rec) :: rest) := by
    rw [hmaster, hmc, fileLines_master body seg rec rest hb hsnl hrec hrest]
  have hfc : fileLines mc = fileLines body ++ [seg] := by
    rw [hmc]
    exact fileLines_split body seg hb hsne hsnl
  refine ⟨hmaster, ?_⟩
  rw [hfm, hfc, List.dropLast_concat, List.getLast?_concat]
  rfl

/-- Concrete instantiation of `claim10_append_nonewline`: master `x`
without trailing newline plus accepted record `a:b:c` yields the single
physical line `xa:b:c`. -/
theorem claim10_append_nonewline_witness :
    (process_files true (chars ("x")) (chars ("a:b:c")) none none).master
        = chars ("x") ++ joinRecs [chars ("a:b:c")] ∧
    fileLines (process_files true (chars ("x")) (chars ("a:b:c")) none none).master
        = (fileLines (chars ("x"))).dropLast ++
          (((fileLines (chars ("x"))).getLast?.getD [] ++ chars ("a:b:c")) :: []) :=
  claim10_append_nonewline (chars ("x")) (chars ("a:b:c")) (chars ("a:b:c")) []
    (by decide) (by decide) (by decide)

/-- Claim C8 (code bug): once the worker has observed the pause inside
its locked boundary check, every reachable interleaving leaves the
worker holding the mutex with the pause flag still set and the pending
`resume()` never completed — the command blocks on the mutex instead of
returning immediately, and the paused run can never be resumed. -/
theorem claim8_pause_deadlock (s : CmdState)
    (hreach : Relation.ReflTransGen cmdStep ⟨true, true, true, false⟩ s) :
    s.workerHoldsLock = true ∧ s.isPaused = true ∧ s.isRunning = true ∧
      s.resumeDone = false := by
  induction hreach with
  | refl => exact ⟨rfl, rfl, rfl, rfl⟩
  | tail hab hbc ih =>
    obtain ⟨hl, hp, hrun, hd⟩ := ih
    cases hbc with
    | workerPoll h1 h2 h3 => exact ⟨hl, hp, hrun, hd⟩
    | workerLeave h1 h2 => exact absurd ⟨hp, hrun⟩ h2
    | resumeAcquire h1 =>
      rw [hl] at h1
      exact absurd h1 (by simp)

/-- Concrete instantiation of `claim8_pause_deadlock` after one sleep
iteration of the paused worker. -/
theorem claim8_pause_deadlock_witness :
    (⟨true, true, true, false⟩ : CmdState).workerHoldsLock = true ∧
    (⟨true, true, true, false⟩ : CmdState).isPaused = true ∧
    (⟨true, true, true, false⟩ : CmdState).isRunning = true ∧
    (⟨true, true, true, false⟩ : CmdState).resumeDone = false :=
  claim8_pause_deadlock ⟨true, true, true, false⟩
    (Relation.ReflTransGen.single
      (cmdStep.workerPoll ⟨true, true, true, false⟩ rfl rfl rfl))
